import Mathlib

/-!
Verification of the crossword CSP solver of `generate.py`: domain
initialization, node consistency (`enforce_node_consistency`), AC-3
propagation (`ac3` / `revise`), and backtracking search (`backtrack`,
`select_unassigned_variable`, `order_domain_values`, `consistent`,
`assignment_complete`, `solve`).

Modelling conventions: Python strings are lists of characters, the word
set and each domain set are lists (Python sets are duplicate-free, and
distinctness is stated where it matters), the assignment dict is an
association list in insertion order, and the mutable `self.domains`
attribute is an explicit domain map threaded through the functions.
The recursion of `backtrack` and the worklist loop of `ac3` take explicit
fuel so that every definition is structurally recursive and executable;
the fuel is provably sufficient where the theorems need it.
-/

namespace Cross

abbrev Word := List Char

/-- Modelled from the spec: the Grid/Slot model built by `crossword.py`,
which is not among the analysed sources.  Slots (variables) are indexed
`0, ..., n-1`; `length` gives each slot's length, `words` the word
dictionary, `overlap x y` the crossing offsets `(i, j)` (character `i` of
`x`'s word must equal character `j` of `y`'s word) or `none` for
non-crossing pairs, and `overlapsKeys` the key list of the `overlaps`
mapping of `crossword.py` (the ordered pairs of distinct slots, in the
mapping's iteration order). -/
structure Crossword (n : Nat) where
  length : Fin n → Nat
  words : List Word
  overlap : Fin n → Fin n → Option (Nat × Nat)
  overlapsKeys : List (Fin n × Fin n)

abbrev Domains (n : Nat) := Fin n → List Word

abbrev Assign (n : Nat) := List (Fin n × Word)

variable {n : Nat}

/-- Modelled from the spec: `Crossword.neighbors` of `crossword.py` — the
slots sharing a defined overlap with `v`, excluding `v` itself. -/
def neighbors (c : Crossword n) (v : Fin n) : List (Fin n) :=
  (List.finRange n).filter (fun u => decide (u ≠ v) && (c.overlap v u).isSome)

/-- Embeds `CrosswordCreator.__init__` followed by
`enforce_node_consistency`: every slot's domain starts as a copy of the
word dictionary, and every word whose length differs from the slot's
length is removed from that slot's domain. -/
def enforce_node_consistency (c : Crossword n) : Domains n :=
  fun v =>
    c.words.foldl
      (fun acc w =>
        if c.length v ≠ w.length then acc.filter (fun u => decide (u ≠ w)) else acc)
      c.words

/-- Compatibility of `wx` at position `i` with `wy` at position `j`: the
source compares `wordX[i] == wordY[j]`. -/
def charMatch (wx wy : Word) (i j : Nat) : Bool :=
  match wx.get? i, wy.get? j with
  | some a, some b => a == b
  | _, _ => false

/-- Embeds `CrosswordCreator.revise`: if `x` and `y` do not overlap, no
revision; otherwise keep in `domains[x]` exactly the words having some
compatible word in `domains[y]` (the `visited` set of the source), report
whether anything was dropped, and install the kept set as the new domain
of `x`. -/
def revise (c : Crossword n) (d : Domains n) (x y : Fin n) : Bool × Domains n :=
  match c.overlap x y with
  | none => (false, d)
  | some (i, j) =>
    let visited := (d x).filter (fun wx => (d y).any (fun wy => charMatch wx wy i j))
    if visited.length = (d x).length then (false, d)
    else (true, Function.update d x visited)

/-- One step of the initial-worklist construction of `ac3`: add the pair
unless it or its reverse is already present. -/
def addArc (acc : List (Fin n × Fin n)) (p : Fin n × Fin n) : List (Fin n × Fin n) :=
  if p ∈ acc ∨ (p.2, p.1) ∈ acc then acc else acc ++ [p]

/-- Embeds the initial worklist of `CrosswordCreator.ac3` when `arcs` is
`None`: iterate over the keys of `crossword.overlaps`, adding a pair only
when neither it nor its reverse has been added already. -/
def initialArcs (c : Crossword n) : List (Fin n × Fin n) :=
  c.overlapsKeys.foldl addArc []

/-- Total number of words over all domains; the termination measure of the
`ac3` worklist loop shrinks with it. -/
def totalSize (d : Domains n) : Nat :=
  Finset.univ.sum (fun v => (d v).length)

/-- Upper bound on the number of remaining iterations of the `ac3`
worklist loop from a given state. -/
def ac3Measure (d : Domains n) (q : List (Fin n × Fin n)) : Nat :=
  q.length + totalSize d * (n + 1)

/-- Embeds the worklist loop of `CrosswordCreator.ac3`, with explicit
fuel; `none` means the fuel ran out, which never happens for fuel above
`ac3Measure` (see `ac3Loop_isSome`).  A successful revision that empties
`domains[x]` returns `false` at once; otherwise all arcs `(z, x)` for
neighbors `z ≠ y` of `x` are appended to the worklist. -/
def ac3Loop (c : Crossword n) :
    Nat → Domains n → List (Fin n × Fin n) → Option (Bool × Domains n)
  | 0, _, _ => none
  | _ + 1, d, [] => some (true, d)
  | f + 1, d, (x, y) :: q =>
    let p := revise c d x y
    if p.1 then
      if (p.2 x).length = 0 then some (false, p.2)
      else
        ac3Loop c f p.2
          (q ++ ((neighbors c x).filter (fun z => decide (z ≠ y))).map (fun z => (z, x)))
    else ac3Loop c f p.2 q

/-- Initial worklist of an `ac3` run: the supplied arc list, or
`initialArcs c` when none is supplied. -/
def queueInit (c : Crossword n) (arcs : Option (List (Fin n × Fin n))) :
    List (Fin n × Fin n) :=
  match arcs with
  | none => initialArcs c
  | some l => l

/-- Embeds `CrosswordCreator.ac3`.  The fuel `ac3Measure + 1` provably
suffices (`ac3Loop_isSome`), so the `getD` default is never used. -/
def ac3 (c : Crossword n) (d : Domains n) (arcs : Option (List (Fin n × Fin n))) :
    Bool × Domains n :=
  (ac3Loop c (ac3Measure d (queueInit c arcs) + 1) d (queueInit c arcs)).getD (true, d)

/-- Lookup in the assignment dict. -/
def lookupA (a : Assign n) (v : Fin n) : Option Word :=
  (a.find? (fun p => p.1 == v)).map (fun p => p.2)

/-- Embeds `assignment.pop(variable)`: drop the binding of `v`. -/
def eraseKey (a : Assign n) (v : Fin n) : Assign n :=
  a.filter (fun p => decide (p.1 ≠ v))

/-- Embeds `CrosswordCreator.assignment_complete`: the number of variables
equals the number of assigned values. -/
def assignment_complete (n : Nat) (a : Assign n) : Bool :=
  n == a.length

/-- Embeds the `for variable in assignment.keys()` loop of
`CrosswordCreator.consistent`; `seen` is the `uniqueWords` accumulator and
`a` the full assignment used for neighbor lookups. -/
def consistentAux (c : Crossword n) (a : Assign n) :
    List (Fin n × Word) → List Word → Bool
  | [], _ => true
  | (v, w) :: rest, seen =>
    if w ∈ seen then false
    else if w.length ≠ c.length v then false
    else if (neighbors c v).all (fun u =>
        match c.overlap v u, lookupA a u with
        | some (i, j), some wu => charMatch w wu i j
        | _, _ => true) then
      consistentAux c a rest (w :: seen)
    else false

/-- Embeds `CrosswordCreator.consistent`: all words distinct, each word's
length matching its slot, and every assigned pair of neighbors agreeing at
the recorded overlap offsets. -/
def consistent (c : Crossword n) (a : Assign n) : Bool :=
  consistentAux c a a []

/-- One step of the fold embedding the selection loop of
`CrosswordCreator.select_unassigned_variable`. -/
def selStep (c : Crossword n) (d : Domains n) (a : Assign n)
    (res : Option (Fin n)) (v : Fin n) : Option (Fin n) :=
  if (lookupA a v).isSome then res
  else
    match res with
    | none => some v
    | some r =>
      if (d v).length < (d r).length ∨
          ((d v).length = (d r).length ∧
            (neighbors c r).length < (neighbors c v).length) then
        some v
      else res

/-- Embeds `CrosswordCreator.select_unassigned_variable`: scan the
variables, keeping the unassigned one with the smallest domain, ties
broken by larger neighbor count, further ties by first encountered. -/
def select_unassigned_variable (c : Crossword n) (d : Domains n) (a : Assign n) :
    Option (Fin n) :=
  (List.finRange n).foldl (selStep c d a) none

/-- Stable insertion of `w` into a list sorted ascending by `key`:
`w` goes after every element whose key is less than or equal. -/
def insertByKey (key : Word → Nat) (w : Word) : List Word → List Word
  | [] => [w]
  | u :: us => if key u ≤ key w then u :: insertByKey key w us else w :: u :: us

/-- Stable ascending sort by `key`, the behaviour of Python's `sorted`
with a key function. -/
def sortByKey (key : Word → Nat) (l : List Word) : List Word :=
  l.foldl (fun acc w => insertByKey key w acc) []

/-- Embeds the `valueCount` computation of
`CrosswordCreator.order_domain_values`: the number of unassigned neighbors
of `v` whose domain contains the word `w` itself. -/
def ruleOutCount (c : Crossword n) (d : Domains n) (a : Assign n)
    (v : Fin n) (w : Word) : Nat :=
  ((neighbors c v).filter (fun u => decide (lookupA a u = none))).countP
    (fun u => decide (w ∈ d u))

/-- Embeds `CrosswordCreator.order_domain_values`: the domain of `v`
sorted ascending (stably) by `ruleOutCount`. -/
def order_domain_values (c : Crossword n) (d : Domains n)
    (v : Fin n) (a : Assign n) : List Word :=
  sortByKey (ruleOutCount c d a v) (d v)

/-- Modelled from the spec: the Least Constraining Value elimination count
— how many words the candidate `w` for slot `v` would eliminate from the
domains of unassigned neighbors, a neighbor's word being eliminated when
it is incompatible at the overlap offsets once `v` is fixed to `w`. -/
def lcvElimCount_spec (c : Crossword n) (d : Domains n) (a : Assign n)
    (v : Fin n) (w : Word) : Nat :=
  (((neighbors c v).filter (fun u => decide (lookupA a u = none))).map (fun u =>
    match c.overlap v u with
    | some (i, j) => ((d u).filter (fun wu => !charMatch w wu i j)).length
    | none => 0)).sum

/-- Modelled from the spec: the Least Constraining Value ordering — the
domain of `v` sorted ascending by `lcvElimCount_spec`. -/
def lcvOrder_spec (c : Crossword n) (d : Domains n) (a : Assign n)
    (v : Fin n) : List Word :=
  sortByKey (lcvElimCount_spec c d a v) (d v)

/-- Result of a `backtrack` call: the returned value, the state of the
(mutated) assignment dict on return, the list of `assignment[variable] =
value` events in order, and the number of `backtrack` invocations. -/
structure BTRes (n : Nat) where
  result : Option (Assign n)
  final : Assign n
  trace : List (Fin n × Word)
  calls : Nat

/-- Embeds the `for value in self.domains[variable]` loop of
`CrosswordCreator.backtrack`: tentatively bind `v` to each word in turn,
recurse (`bt` is the recursion at the next fuel level) when the extended
assignment is consistent, propagate a success unchanged, and pop the
tentative binding before trying the next word. -/
def tryValues (c : Crossword n) (bt : Assign n → BTRes n) (v : Fin n) :
    List Word → Assign n → BTRes n
  | [], a => ⟨none, a, [], 0⟩
  | w :: ws, a =>
    let a1 := a ++ [(v, w)]
    if consistent c a1 then
      let r := bt a1
      match r.result with
      | some res => ⟨some res, r.final, (v, w) :: r.trace, r.calls⟩
      | none =>
        let rest := tryValues c bt v ws (eraseKey r.final v)
        ⟨rest.result, rest.final, (v, w) :: (r.trace ++ rest.trace),
          r.calls + rest.calls⟩
    else
      let rest := tryValues c bt v ws (eraseKey a1 v)
      ⟨rest.result, rest.final, (v, w) :: rest.trace, rest.calls⟩

/-- Embeds `CrosswordCreator.backtrack` with explicit fuel bounding the
recursion depth: return the assignment once complete, otherwise select an
unassigned variable and try its domain values in order.  A new binding for
a fresh key lands at the end of the Python dict's iteration order, which
`tryValues` mirrors; `select_unassigned_variable` only ever returns
unassigned variables. -/
def backtrack (c : Crossword n) (d : Domains n) : Nat → Assign n → BTRes n
  | 0, a => ⟨none, a, [], 1⟩
  | f + 1, a =>
    if assignment_complete n a then ⟨some a, a, [], 1⟩
    else
      match select_unassigned_variable c d a with
      | none => ⟨none, a, [], 1⟩
      | some v =>
        let r := tryValues c (backtrack c d f) v (d v) a
        ⟨r.result, r.final, r.trace, r.calls + 1⟩

/-- Embeds `CrosswordCreator.solve`: enforce node consistency, run `ac3`
— whose boolean result is discarded, mirroring the source — then call
`backtrack` on the empty assignment.  Fuel `n + 1` bounds the recursion
depth, which grows by one assigned slot per level. -/
def solveTr (c : Crossword n) : BTRes n :=
  let d1 := enforce_node_consistency c
  let p := ac3 c d1 none
  backtrack c p.2 (n + 1) []

/-- The value `CrosswordCreator.solve` returns. -/
def solve (c : Crossword n) : Option (Assign n) :=
  (solveTr c).result

/-- Arc consistency of the ordered pair `(x, y)` under domains `d`: every
word of `domains[x]` has a compatible word in `domains[y]` at the recorded
offsets (trivially true for non-overlapping pairs). -/
def arcOKb (c : Crossword n) (d : Domains n) (x y : Fin n) : Bool :=
  match c.overlap x y with
  | none => true
  | some (i, j) => (d x).all (fun wx => (d y).any (fun wy => charMatch wx wy i j))

/-- Concrete puzzle: two crossing slots of length 2 whose overlap demands
`w0[0] = w1[1]`, with words "ab" and "cd" — no pair is compatible, so AC-3
empties a domain (the spec's Scenario C). -/
def cA : Crossword 2 where
  length := fun _ => 2
  words := ["ab".toList, "cd".toList]
  overlap := fun x y =>
    if x = 0 ∧ y = 1 then some (0, 1)
    else if x = 1 ∧ y = 0 then some (1, 0)
    else none
  overlapsKeys := [(0, 1), (1, 0)]

/-- Concrete puzzle: two crossing slots of length 2 with overlap
`w0[0] = w1[1]` and words "ab", "aa": arc `(0, 1)` is already consistent,
while `(1, 0)` is not — the word "ab" in slot 1's domain has no support in
slot 0's domain. -/
def cB : Crossword 2 where
  length := fun _ => 2
  words := ["ab".toList, "aa".toList]
  overlap := fun x y =>
    if x = 0 ∧ y = 1 then some (0, 1)
    else if x = 1 ∧ y = 0 then some (1, 0)
    else none
  overlapsKeys := [(0, 1), (1, 0)]

/-- Concrete puzzle: two crossing slots of length 2 agreeing at their
first characters, with words "ab", "bb", "bc"; solvable, and the word
"ab" is the most constraining candidate yet sits first in the domain. -/
def cC : Crossword 2 where
  length := fun _ => 2
  words := ["ab".toList, "bb".toList, "bc".toList]
  overlap := fun x y =>
    if x = 0 ∧ y = 1 then some (0, 0)
    else if x = 1 ∧ y = 0 then some (0, 0)
    else none
  overlapsKeys := [(0, 1), (1, 0)]

/-- Concrete puzzle: a single slot of length 2 and the single word "ab";
solvable immediately. -/
def cE : Crossword 1 where
  length := fun _ => 2
  words := ["ab".toList]
  overlap := fun _ _ => none
  overlapsKeys := []

/-- Concrete puzzle: a single slot of length 2 whose only dictionary word
has length 3; node consistency empties the domain and search fails. -/
def cF : Crossword 1 where
  length := fun _ => 2
  words := ["abc".toList]
  overlap := fun _ _ => none
  overlapsKeys := []

/-- Domains of `cC` as produced by `solve`'s pipeline (node consistency
followed by `ac3`, which prunes nothing here). -/
def dC : Domains 2 :=
  (ac3 cC (enforce_node_consistency cC) none).2

/-! Lemmas about `revise`. -/

theorem revise_none (c : Crossword n) (d : Domains n) (x y : Fin n)
    (hov : c.overlap x y = none) : revise c d x y = (false, d) := by
  unfold revise
  rw [hov]

theorem revise_some (c : Crossword n) (d : Domains n) (x y : Fin n) (i j : Nat)
    (hov : c.overlap x y = some (i, j)) :
    revise c d x y =
      if ((d x).filter (fun wx => (d y).any (fun wy => charMatch wx wy i j))).length =
          (d x).length then (false, d)
      else
        (true, Function.update d x
          ((d x).filter (fun wx => (d y).any (fun wy => charMatch wx wy i j)))) := by
  unfold revise
  rw [hov]

theorem revise_frame (c : Crossword n) (d : Domains n) (x y z : Fin n)
    (hz : z ≠ x) : (revise c d x y).2 z = d z := by
  cases hov : c.overlap x y with
  | none => rw [revise_none c d x y hov]
  | some p =>
    obtain ⟨i, j⟩ := p
    rw [revise_some c d x y i j hov]
    split
    · rfl
    · exact Function.update_noteq hz _ d

theorem revise_subset (c : Crossword n) (d : Domains n) (x y v : Fin n) (w : Word)
    (h : w ∈ (revise c d x y).2 v) : w ∈ d v := by
  by_cases hv : v = x
  · subst hv
    cases hov : c.overlap v y with
    | none => rwa [revise_none c d v y hov] at h
    | some p =>
      obtain ⟨i, j⟩ := p
      rw [revise_some c d v y i j hov] at h
      split at h
      · exact h
      · have h' : w ∈ Function.update d v
            ((d v).filter (fun wx => (d y).any (fun wy => charMatch wx wy i j))) v := h
        rw [Function.update_same] at h'
        exact (List.mem_filter.mp h').1
  · rwa [revise_frame c d x y v hv] at h

theorem revise_false_eq (c : Crossword n) (d : Domains n) (x y : Fin n)
    (h : (revise c d x y).1 = false) : (revise c d x y).2 = d := by
  cases hov : c.overlap x y with
  | none => rw [revise_none c d x y hov]
  | some p =>
    obtain ⟨i, j⟩ := p
    rw [revise_some c d x y i j hov] at h ⊢
    split at h
    · simp_all
    · simp at h

theorem revise_true_spec (c : Crossword n) (d : Domains n) (x y : Fin n)
    (h : (revise c d x y).1 = true) :
    ∃ i j, c.overlap x y = some (i, j) ∧
      (revise c d x y).2 =
        Function.update d x
          ((d x).filter (fun wx => (d y).any (fun wy => charMatch wx wy i j))) ∧
      ((d x).filter (fun wx => (d y).any (fun wy => charMatch wx wy i j))).length <
        (d x).length := by
  cases hov : c.overlap x y with
  | none => rw [revise_none c d x y hov] at h; simp at h
  | some p =>
    obtain ⟨i, j⟩ := p
    rw [revise_some c d x y i j hov] at h ⊢
    split at h
    · simp at h
    · rename_i hne
      rw [if_neg hne]
      exact ⟨i, j, rfl, rfl, Nat.lt_of_le_of_ne (List.length_filter_le _ _) hne⟩

/-! Node consistency: membership after the removal fold. -/

theorem mem_encFold (L : Nat) (l acc : List Word) (w : Word) :
    w ∈ l.foldl
        (fun acc u => if L ≠ u.length then acc.filter (fun x => decide (x ≠ u)) else acc)
        acc ↔
      w ∈ acc ∧ (w ∈ l → L = w.length) := by
  induction l generalizing acc with
  | nil => simp
  | cons u us ih =>
    simp only [List.foldl_cons]
    rw [ih]
    by_cases hu : L ≠ u.length
    · simp only [if_pos hu]
      constructor
      · rintro ⟨hmem, himp⟩
        rw [List.mem_filter] at hmem
        obtain ⟨hacc, hne⟩ := hmem
        have hne' : w ≠ u := by simpa using hne
        refine ⟨hacc, fun hm => ?_⟩
        rcases List.mem_cons.mp hm with h | h
        · exact absurd h hne'
        · exact himp h
      · rintro ⟨hacc, himp⟩
        have hne' : w ≠ u := by
          intro he
          subst he
          exact hu (himp (List.mem_cons_self _ _))
        exact ⟨List.mem_filter.mpr ⟨hacc, by simpa using hne'⟩,
          fun hm => himp (List.mem_cons_of_mem _ hm)⟩
    · simp only [if_neg hu]
      push_neg at hu
      constructor
      · rintro ⟨hacc, himp⟩
        refine ⟨hacc, fun hm => ?_⟩
        rcases List.mem_cons.mp hm with h | h
        · rw [h]; exact hu
        · exact himp h
      · rintro ⟨hacc, himp⟩
        exact ⟨hacc, fun hm => himp (List.mem_cons_of_mem _ hm)⟩

/-- C6: after domain initialization and node consistency enforcement, the
domain of every slot `v` is exactly the set of dictionary words whose
length equals `v`'s length. -/
theorem c6_node_consistency (c : Crossword n) (v : Fin n) (w : Word) :
    w ∈ enforce_node_consistency c v ↔ (w ∈ c.words ∧ w.length = c.length v) := by
  unfold enforce_node_consistency
  rw [mem_encFold]
  constructor
  · rintro ⟨hm, himp⟩
    exact ⟨hm, (himp hm).symm⟩
  · rintro ⟨hm, hlen⟩
    exact ⟨hm, fun _ => hlen.symm⟩

/-- C10: `revise(x, y)` modifies at most the domain of `x`: the domain of
every other slot `z` (including `y` itself) is unchanged by the call,
whether or not a revision was made. -/
theorem c10_revise_frame (c : Crossword n) (d : Domains n) (x y z : Fin n)
    (hz : z ≠ x) : (revise c d x y).2 z = d z :=
  revise_frame c d x y z hz

theorem c10_witness :
    (1 : Fin 2) ≠ 0 ∧
      (revise cB (enforce_node_consistency cB) 0 1).2 1 =
        enforce_node_consistency cB 1 :=
  ⟨by decide, c10_revise_frame cB (enforce_node_consistency cB) 0 1 1 (by decide)⟩

/-! Lemmas about the `ac3` worklist loop. -/

theorem revise_totalSize_lt (c : Crossword n) (d : Domains n) (x y : Fin n)
    (h : (revise c d x y).1 = true) :
    totalSize (revise c d x y).2 < totalSize d := by
  obtain ⟨i, j, hov, heq, hlt⟩ := revise_true_spec c d x y h
  rw [heq]
  unfold totalSize
  rw [← Finset.sum_erase_add _ _ (Finset.mem_univ x)]
  rw [← Finset.sum_erase_add _ _ (Finset.mem_univ x)]
  have hsame :
      ((Finset.univ.erase x).sum fun v =>
        ((Function.update d x
          ((d x).filter (fun wx => (d y).any (fun wy => charMatch wx wy i j)))) v).length) =
      (Finset.univ.erase x).sum (fun v => (d v).length) := by
    refine Finset.sum_congr rfl fun v hv => ?_
    rw [Function.update_noteq (Finset.ne_of_mem_erase hv)]
  rw [hsame, Function.update_same]
  exact Nat.add_lt_add_left hlt _

theorem enq_length_le (c : Crossword n) (x y : Fin n) :
    (((neighbors c x).filter (fun z => decide (z ≠ y))).map (fun z => (z, x))).length ≤ n := by
  rw [List.length_map]
  have h1 : ((neighbors c x).filter (fun z => decide (z ≠ y))).length ≤
      (neighbors c x).length := List.length_filter_le _ _
  have h2 : (neighbors c x).length ≤ n := by
    unfold neighbors
    have := List.length_filter_le
      (fun u => decide (u ≠ x) && (c.overlap x u).isSome) (List.finRange n)
    simpa [List.length_finRange] using this
  omega

theorem ac3Loop_subset (c : Crossword n) :
    ∀ (f : Nat) (d : Domains n) (q : List (Fin n × Fin n)) (r : Bool × Domains n),
      ac3Loop c f d q = some r → ∀ (v : Fin n) (w : Word), w ∈ r.2 v → w ∈ d v := by
  intro f
  induction f with
  | zero =>
    intro d q r h
    simp [ac3Loop] at h
  | succ f ih =>
    intro d q r h v w hw
    cases q with
    | nil =>
      simp only [ac3Loop, Option.some.injEq] at h
      rw [← h] at hw
      exact hw
    | cons a q =>
      obtain ⟨x, y⟩ := a
      simp only [ac3Loop] at h
      by_cases hr : (revise c d x y).1 = true
      · rw [if_pos hr] at h
        by_cases hz : ((revise c d x y).2 x).length = 0
        · rw [if_pos hz] at h
          cases h
          exact revise_subset c d x y v w hw
        · rw [if_neg hz] at h
          exact revise_subset c d x y v w (ih _ _ _ h v w hw)
      · rw [if_neg hr] at h
        exact revise_subset c d x y v w (ih _ _ _ h v w hw)

theorem ac3Loop_false_empty (c : Crossword n) :
    ∀ (f : Nat) (d : Domains n) (q : List (Fin n × Fin n)) (d' : Domains n),
      ac3Loop c f d q = some (false, d') → ∃ v, d' v = [] := by
  intro f
  induction f with
  | zero =>
    intro d q d' h
    simp [ac3Loop] at h
  | succ f ih =>
    intro d q d' h
    cases q with
    | nil => simp [ac3Loop] at h
    | cons a q =>
      obtain ⟨x, y⟩ := a
      simp only [ac3Loop] at h
      by_cases hr : (revise c d x y).1 = true
      · rw [if_pos hr] at h
        by_cases hz : ((revise c d x y).2 x).length = 0
        · rw [if_pos hz] at h
          simp only [Option.some.injEq, Prod.mk.injEq] at h
          exact ⟨x, by rw [← h.2]; exact List.length_eq_zero.mp hz⟩
        · rw [if_neg hz] at h
          exact ih _ _ _ h
      · rw [if_neg hr] at h
        exact ih _ _ _ h

theorem ac3Loop_isSome (c : Crossword n) :
    ∀ (f : Nat) (d : Domains n) (q : List (Fin n × Fin n)),
      ac3Measure d q < f → (ac3Loop c f d q).isSome = true := by
  intro f
  induction f with
  | zero =>
    intro d q h
    exact absurd h (Nat.not_lt_zero _)
  | succ f ih =>
    intro d q h
    cases q with
    | nil => simp [ac3Loop]
    | cons a q =>
      obtain ⟨x, y⟩ := a
      simp only [ac3Loop]
      by_cases hr : (revise c d x y).1 = true
      · rw [if_pos hr]
        by_cases hz : ((revise c d x y).2 x).length = 0
        · rw [if_pos hz]; rfl
        · rw [if_neg hz]
          apply ih
          have hts := revise_totalSize_lt c d x y hr
          have hmul : totalSize ((revise c d x y).2) * (n + 1) + (n + 1) ≤
              totalSize d * (n + 1) := by
            have h1 : totalSize ((revise c d x y).2) + 1 ≤ totalSize d := hts
            calc totalSize ((revise c d x y).2) * (n + 1) + (n + 1)
                = (totalSize ((revise c d x y).2) + 1) * (n + 1) := by ring
              _ ≤ totalSize d * (n + 1) := Nat.mul_le_mul_right _ h1
          have henq := enq_length_le c x y
          unfold ac3Measure at h ⊢
          rw [List.length_append]
          simp only [List.length_cons] at h
          omega
      · rw [if_neg hr]
        have heq : (revise c d x y).2 = d :=
          revise_false_eq c d x y (by simpa using hr)
        rw [heq]
        apply ih
        unfold ac3Measure at h ⊢
        simp only [List.length_cons] at h
        omega

theorem ac3Loop_fuel_eq (c : Crossword n) :
    ∀ (f₁ : Nat) (d : Domains n) (q : List (Fin n × Fin n)) (f₂ : Nat),
      ac3Measure d q < f₁ → ac3Measure d q < f₂ →
      ac3Loop c f₁ d q = ac3Loop c f₂ d q := by
  intro f₁
  induction f₁ with
  | zero =>
    intro d q f₂ h1 _
    exact absurd h1 (Nat.not_lt_zero _)
  | succ f₁ ih =>
    intro d q f₂ h1 h2
    cases f₂ with
    | zero => exact absurd h2 (Nat.not_lt_zero _)
    | succ f₂ =>
      cases q with
      | nil => simp [ac3Loop]
      | cons a q =>
        obtain ⟨x, y⟩ := a
        simp only [ac3Loop]
        by_cases hr : (revise c d x y).1 = true
        · rw [if_pos hr, if_pos hr]
          by_cases hz : ((revise c d x y).2 x).length = 0
          · rw [if_pos hz, if_pos hz]
          · rw [if_neg hz, if_neg hz]
            have hts := revise_totalSize_lt c d x y hr
            have hmul : totalSize ((revise c d x y).2) * (n + 1) + (n + 1) ≤
                totalSize d * (n + 1) := by
              have hle : totalSize ((revise c d x y).2) + 1 ≤ totalSize d := hts
              calc totalSize ((revise c d x y).2) * (n + 1) + (n + 1)
                  = (totalSize ((revise c d x y).2) + 1) * (n + 1) := by ring
                _ ≤ totalSize d * (n + 1) := Nat.mul_le_mul_right _ hle
            have henq := enq_length_le c x y
            apply ih
            · unfold ac3Measure at h1 ⊢
              rw [List.length_append]
              simp only [List.length_cons] at h1
              omega
            · unfold ac3Measure at h2 ⊢
              rw [List.length_append]
              simp only [List.length_cons] at h2
              omega
        · rw [if_neg hr, if_neg hr]
          have heq : (revise c d x y).2 = d :=
            revise_false_eq c d x y (by simpa using hr)
          rw [heq]
          apply ih
          · unfold ac3Measure at h1 ⊢
            simp only [List.length_cons] at h1
            omega
          · unfold ac3Measure at h2 ⊢
            simp only [List.length_cons] at h2
            omega

theorem ac3_eq_loop (c : Crossword n) (d : Domains n)
    (arcs : Option (List (Fin n × Fin n))) :
    ac3Loop c (ac3Measure d (queueInit c arcs) + 1) d (queueInit c arcs) =
      some (ac3 c d arcs) := by
  have h := ac3Loop_isSome c (ac3Measure d (queueInit c arcs) + 1) d
    (queueInit c arcs) (Nat.lt_succ_self _)
  obtain ⟨r, hr⟩ := Option.isSome_iff_exists.mp h
  unfold ac3
  rw [hr]
  rfl

/-- C7: AC-3 only shrinks domains: after any run of `ac3` (successful or
not, with or without an explicit arc list), every slot's domain is a
subset of its domain before the run. -/
theorem c7_ac3_shrinks (c : Crossword n) (d : Domains n)
    (arcs : Option (List (Fin n × Fin n))) (v : Fin n) (w : Word)
    (h : w ∈ (ac3 c d arcs).2 v) : w ∈ d v :=
  ac3Loop_subset c _ d _ _ (ac3_eq_loop c d arcs) v w h

theorem c7_witness :
    "ab".toList ∈ (ac3 cB (enforce_node_consistency cB) none).2 0 ∧
      "ab".toList ∈ enforce_node_consistency cB 0 :=
  ⟨by decide,
    c7_ac3_shrinks cB (enforce_node_consistency cB) none 0 "ab".toList (by decide)⟩

/-- C9: the `ac3` worklist loop terminates on every input: each revision
strictly shrinks the total domain size, re-enqueuing adds at most `n`
arcs, so fuel `ac3Measure + 1` always produces a result, and every larger
fuel produces the same result. -/
theorem c9_ac3_terminates (c : Crossword n) (d : Domains n)
    (q : List (Fin n × Fin n)) (f : Nat) (hf : ac3Measure d q < f) :
    (ac3Loop c (ac3Measure d q + 1) d q).isSome = true ∧
      ac3Loop c f d q = ac3Loop c (ac3Measure d q + 1) d q :=
  ⟨ac3Loop_isSome c _ d q (Nat.lt_succ_self _),
    ac3Loop_fuel_eq c f d q _ hf (Nat.lt_succ_self _)⟩

theorem c9_witness :
    ac3Measure (enforce_node_consistency cB) (initialArcs cB) <
        ac3Measure (enforce_node_consistency cB) (initialArcs cB) + 5 ∧
      (ac3Loop cB (ac3Measure (enforce_node_consistency cB) (initialArcs cB) + 1)
          (enforce_node_consistency cB) (initialArcs cB)).isSome = true ∧
      ac3Loop cB (ac3Measure (enforce_node_consistency cB) (initialArcs cB) + 5)
          (enforce_node_consistency cB) (initialArcs cB) =
        ac3Loop cB (ac3Measure (enforce_node_consistency cB) (initialArcs cB) + 1)
          (enforce_node_consistency cB) (initialArcs cB) := by
  refine ⟨by omega, ?_⟩
  have h := c9_ac3_terminates cB (enforce_node_consistency cB) (initialArcs cB)
    (ac3Measure (enforce_node_consistency cB) (initialArcs cB) + 5) (by omega)
  exact h

/-! Arc-consistency facts about `revise` and the `ac3` loop invariant. -/

theorem charMatch_symm (wx wy : Word) (i j : Nat) :
    charMatch wx wy i j = charMatch wy wx j i := by
  unfold charMatch
  cases wx.get? i with
  | none => cases wy.get? j <;> rfl
  | some a =>
    cases wy.get? j with
    | none => rfl
    | some b =>
      show (a == b) = (b == a)
      by_cases h : a = b
      · subst h; rfl
      · rw [beq_eq_false_iff_ne.mpr h, beq_eq_false_iff_ne.mpr (Ne.symm h)]

theorem mem_neighbors (c : Crossword n) (v u : Fin n) :
    u ∈ neighbors c v ↔ (u ≠ v ∧ (c.overlap v u).isSome = true) := by
  unfold neighbors
  simp [List.mem_filter, List.mem_finRange]

theorem arcOKb_none (c : Crossword n) (d : Domains n) (x y : Fin n)
    (hov : c.overlap x y = none) : arcOKb c d x y = true := by
  unfold arcOKb
  rw [hov]

theorem arcOKb_some_iff (c : Crossword n) (d : Domains n) (x y : Fin n) (i j : Nat)
    (hov : c.overlap x y = some (i, j)) :
    arcOKb c d x y = true ↔
      ∀ wx ∈ d x, ∃ wy ∈ d y, charMatch wx wy i j = true := by
  unfold arcOKb
  rw [hov]
  simp [List.all_eq_true, List.any_eq_true]

theorem revise_false_arcOK (c : Crossword n) (d : Domains n) (x y : Fin n)
    (h : (revise c d x y).1 = false) : arcOKb c d x y = true := by
  cases hov : c.overlap x y with
  | none => exact arcOKb_none c d x y hov
  | some p =>
    obtain ⟨i, j⟩ := p
    rw [revise_some c d x y i j hov] at h
    rw [arcOKb_some_iff c d x y i j hov]
    split at h
    · rename_i hlen
      have hfe : (d x).filter (fun wx => (d y).any (fun wy => charMatch wx wy i j)) = d x :=
        (List.filter_sublist _).eq_of_length hlen
      intro wx hwx
      have hpred : ((d y).any (fun wy => charMatch wx wy i j)) = true := by
        have := List.filter_eq_self.mp hfe wx hwx
        exact this
      rw [List.any_eq_true] at hpred
      obtain ⟨wy, hwy, hcm⟩ := hpred
      exact ⟨wy, hwy, hcm⟩
    · simp at h

theorem revise_arcOK_self (c : Crossword n) (d : Domains n) (x y : Fin n)
    (hr : (revise c d x y).1 = true) (hxy : y ≠ x) :
    arcOKb c ((revise c d x y).2) x y = true := by
  obtain ⟨i, j, hov, heq, _⟩ := revise_true_spec c d x y hr
  rw [heq, arcOKb_some_iff c _ x y i j hov]
  intro wx hwx
  rw [Function.update_same] at hwx
  obtain ⟨hmem, hpred⟩ := List.mem_filter.mp hwx
  rw [List.any_eq_true] at hpred
  obtain ⟨wy, hwy, hcm⟩ := hpred
  exact ⟨wy, by rw [Function.update_noteq hxy]; exact hwy, hcm⟩

theorem arcOKb_congr (c : Crossword n) (d d' : Domains n) (u v : Fin n)
    (hu : d' u = d u) (hv : d' v = d v) : arcOKb c d' u v = arcOKb c d u v := by
  unfold arcOKb
  cases c.overlap u v with
  | none => rfl
  | some p => obtain ⟨i, j⟩ := p; rw [hu, hv]

theorem arcOK_shrink (c : Crossword n) (d d' : Domains n) (x v : Fin n)
    (hsub : ∀ w, w ∈ d' x → w ∈ d x) (hv : d' v = d v)
    (hok : arcOKb c d x v = true) : arcOKb c d' x v = true := by
  cases hov : c.overlap x v with
  | none => exact arcOKb_none c d' x v hov
  | some p =>
    obtain ⟨i, j⟩ := p
    rw [arcOKb_some_iff c d' x v i j hov]
    rw [arcOKb_some_iff c d x v i j hov] at hok
    intro wx hwx
    obtain ⟨wy, hwy, hcm⟩ := hok wx (hsub wx hwx)
    exact ⟨wy, by rw [hv]; exact hwy, hcm⟩

theorem revise_arcOK_rev (c : Crossword n) (d : Domains n) (x y : Fin n)
    (hr : (revise c d x y).1 = true) (hxy : y ≠ x)
    (hsym : ∀ a b i j, c.overlap a b = some (i, j) → c.overlap b a = some (j, i))
    (hok : arcOKb c d y x = true) :
    arcOKb c ((revise c d x y).2) y x = true := by
  obtain ⟨i, j, hov, heq, _⟩ := revise_true_spec c d x y hr
  have hovyx : c.overlap y x = some (j, i) := hsym x y i j hov
  rw [heq, arcOKb_some_iff c _ y x j i hovyx]
  rw [arcOKb_some_iff c d y x j i hovyx] at hok
  intro wy hwy
  rw [Function.update_noteq hxy] at hwy
  obtain ⟨wx, hwx, hcm⟩ := hok wy hwy
  refine ⟨wx, ?_, hcm⟩
  rw [Function.update_same]
  refine List.mem_filter.mpr ⟨hwx, ?_⟩
  rw [List.any_eq_true]
  refine ⟨wy, hwy, ?_⟩
  rw [charMatch_symm]
  exact hcm

theorem ac3Loop_invariant (c : Crossword n)
    (hsym : ∀ a b i j, c.overlap a b = some (i, j) → c.overlap b a = some (j, i))
    (hirr : ∀ a, c.overlap a a = none)
    (A : List (Fin n × Fin n)) :
    ∀ (f : Nat) (d : Domains n) (q : List (Fin n × Fin n)) (d' : Domains n),
      (∀ p ∈ A, p ∈ q ∨ arcOKb c d p.1 p.2 = true) →
      ac3Loop c f d q = some (true, d') →
      ∀ p ∈ A, arcOKb c d' p.1 p.2 = true := by
  intro f
  induction f with
  | zero =>
    intro d q d' _ h
    simp [ac3Loop] at h
  | succ f ih =>
    intro d q d' hinv h
    cases q with
    | nil =>
      simp only [ac3Loop, Option.some.injEq, Prod.mk.injEq] at h
      intro p hp
      rcases hinv p hp with hq | hok
      · simp at hq
      · rw [← h.2]
        exact hok
    | cons a q =>
      obtain ⟨x, y⟩ := a
      simp only [ac3Loop] at h
      by_cases hr : (revise c d x y).1 = true
      · rw [if_pos hr] at h
        by_cases hz : ((revise c d x y).2 x).length = 0
        · rw [if_pos hz] at h
          simp at h
        · rw [if_neg hz] at h
          have hxy : y ≠ x := by
            intro he
            subst he
            obtain ⟨i, j, hov, _, _⟩ := revise_true_spec c d y y hr
            rw [hirr y] at hov
            exact Option.noConfusion hov
          refine ih _ _ _ ?_ h
          intro p hp
          rcases hinv p hp with hq | hok
          · rcases List.mem_cons.mp hq with he | hq'
            · subst he
              exact Or.inr (revise_arcOK_self c d x y hr hxy)
            · exact Or.inl (List.mem_append_left _ hq')
          · obtain ⟨u, v⟩ := p
            by_cases hux : u = x
            · subst hux
              by_cases hvx : v = u
              · subst hvx
                exact Or.inr (arcOKb_none c _ v v (hirr v))
              · exact Or.inr (arcOK_shrink c d _ u v
                  (fun w hw => revise_subset c d u y u w hw)
                  (revise_frame c d u y v hvx) hok)
            · by_cases hvx : v = x
              · subst hvx
                by_cases huy : u = y
                · subst huy
                  exact Or.inr (revise_arcOK_rev c d v u hr
                    (fun he => hux he) hsym hok)
                · cases hovu : c.overlap u v with
                  | none =>
                    exact Or.inr (arcOKb_none c _ u v hovu)
                  | some pp =>
                    obtain ⟨i', j'⟩ := pp
                    refine Or.inl (List.mem_append_right _ ?_)
                    rw [List.mem_map]
                    refine ⟨u, List.mem_filter.mpr ⟨?_, by simpa using huy⟩, rfl⟩
                    rw [mem_neighbors]
                    exact ⟨fun he => hux he, by rw [hsym u v i' j' hovu]; rfl⟩
              · refine Or.inr ?_
                rw [arcOKb_congr c _ _ u v (revise_frame c d x y u hux)
                  (revise_frame c d x y v hvx)]
                exact hok
      · rw [if_neg hr] at h
        have hb : (revise c d x y).1 = false := by simpa using hr
        have heqd : (revise c d x y).2 = d := revise_false_eq c d x y hb
        rw [heqd] at h
        refine ih _ _ _ ?_ h
        intro p hp
        rcases hinv p hp with hq | hok
        · rcases List.mem_cons.mp hq with he | hq'
          · subst he
            exact Or.inr (revise_false_arcOK c d x y hb)
          · exact Or.inl hq'
        · exact Or.inr hok

/-! Lemmas about the initial worklist construction. -/

theorem foldl_addArc_mono :
    ∀ (l acc : List (Fin n × Fin n)) (p : Fin n × Fin n),
      p ∈ acc → p ∈ l.foldl addArc acc := by
  intro l
  induction l with
  | nil => intro acc p hp; exact hp
  | cons u us ih =>
    intro acc p hp
    simp only [List.foldl_cons]
    refine ih _ _ ?_
    unfold addArc
    split
    · exact hp
    · exact List.mem_append_left _ hp

theorem foldl_addArc_sub :
    ∀ (l acc : List (Fin n × Fin n)) (p : Fin n × Fin n),
      p ∈ l.foldl addArc acc → p ∈ acc ∨ p ∈ l := by
  intro l
  induction l with
  | nil => intro acc p h; exact Or.inl h
  | cons u us ih =>
    intro acc p h
    simp only [List.foldl_cons] at h
    rcases ih _ _ h with h1 | h1
    · unfold addArc at h1
      split at h1
      · exact Or.inl h1
      · rcases List.mem_append.mp h1 with h2 | h2
        · exact Or.inl h2
        · exact Or.inr (List.mem_cons.mpr (Or.inl (List.mem_singleton.mp h2)))
    · exact Or.inr (List.mem_cons_of_mem _ h1)

theorem foldl_addArc_cover :
    ∀ (l acc : List (Fin n × Fin n)) (p : Fin n × Fin n),
      p ∈ l → p ∈ l.foldl addArc acc ∨ (p.2, p.1) ∈ l.foldl addArc acc := by
  intro l
  induction l with
  | nil => intro acc p h; exact absurd h (List.not_mem_nil p)
  | cons u us ih =>
    intro acc p h
    simp only [List.foldl_cons]
    rcases List.mem_cons.mp h with he | hm
    · subst he
      unfold addArc
      split
      · rename_i hc
        rcases hc with h1 | h1
        · exact Or.inl (foldl_addArc_mono us acc p h1)
        · exact Or.inr (foldl_addArc_mono us acc _ h1)
      · exact Or.inl (foldl_addArc_mono us _ p
          (List.mem_append_right _ (List.mem_singleton.mpr rfl)))
    · exact ih _ p hm

theorem addArc_antisymm_step (acc : List (Fin n × Fin n)) (u : Fin n × Fin n)
    (hinv : ∀ a b : Fin n, (a, b) ∈ acc → (b, a) ∈ acc → a = b) :
    ∀ a b : Fin n, (a, b) ∈ addArc acc u → (b, a) ∈ addArc acc u → a = b := by
  intro a b ha hb
  by_cases hc : u ∈ acc ∨ (u.2, u.1) ∈ acc
  · unfold addArc at ha hb
    rw [if_pos hc] at ha hb
    exact hinv a b ha hb
  · unfold addArc at ha hb
    rw [if_neg hc] at ha hb
    rcases List.mem_append.mp ha with h1 | h1 <;> rcases List.mem_append.mp hb with h2 | h2
    · exact hinv a b h1 h2
    · have he : (b, a) = u := List.mem_singleton.mp h2
      exact absurd (Or.inr (by rw [← he]; exact h1)) hc
    · have he : (a, b) = u := List.mem_singleton.mp h1
      exact absurd (Or.inr (by rw [← he]; exact h2)) hc
    · have he : (a, b) = (b, a) :=
        (List.mem_singleton.mp h1).trans (List.mem_singleton.mp h2).symm
      exact congrArg Prod.fst he

theorem foldl_addArc_antisymm :
    ∀ (l acc : List (Fin n × Fin n)),
      (∀ a b : Fin n, (a, b) ∈ acc → (b, a) ∈ acc → a = b) →
      ∀ a b : Fin n, (a, b) ∈ l.foldl addArc acc → (b, a) ∈ l.foldl addArc acc → a = b := by
  intro l
  induction l with
  | nil => intro acc hinv; exact hinv
  | cons u us ih =>
    intro acc hinv
    simp only [List.foldl_cons]
    exact ih _ (addArc_antisymm_step acc u hinv)

/-- C4 (amended): with no explicit arc list, the initial worklist contains
exactly one ordering of each pair listed in the overlaps mapping — every
initial arc is a key of the mapping, every key is enqueued in one of its
two orderings, and never in both orderings for distinct slots.  Crossing
pairs are covered only via the single enqueued ordering, and non-crossing
key pairs are enqueued as well. -/
theorem c4_one_direction_per_pair (c : Crossword n) :
    (∀ p ∈ initialArcs c, p ∈ c.overlapsKeys) ∧
    (∀ p ∈ c.overlapsKeys, p ∈ initialArcs c ∨ (p.2, p.1) ∈ initialArcs c) ∧
    (∀ x y : Fin n, (x, y) ∈ initialArcs c → (y, x) ∈ initialArcs c → x = y) := by
  refine ⟨?_, ?_, ?_⟩
  · intro p hp
    rcases foldl_addArc_sub c.overlapsKeys [] p hp with h | h
    · exact absurd h (List.not_mem_nil p)
    · exact h
  · intro p hp
    exact foldl_addArc_cover c.overlapsKeys [] p hp
  · exact foldl_addArc_antisymm c.overlapsKeys []
      (fun a b ha _ => absurd ha (List.not_mem_nil _))

theorem c4_witness :
    (((0, 1) : Fin 2 × Fin 2) ∈ initialArcs cB ∧
        ((0, 1) : Fin 2 × Fin 2) ∈ cB.overlapsKeys) ∧
      (((1, 0) : Fin 2 × Fin 2) ∈ cB.overlapsKeys ∧
        (((1, 0) : Fin 2 × Fin 2) ∈ initialArcs cB ∨
          ((0, 1) : Fin 2 × Fin 2) ∈ initialArcs cB)) :=
  ⟨⟨by decide, (c4_one_direction_per_pair cB).1 (0, 1) (by decide)⟩,
   ⟨by decide, (c4_one_direction_per_pair cB).2.1 (1, 0) (by decide)⟩⟩

/-- C4 is false as stated: in the concrete crossword `cB`, slots 0 and 1
cross, yet the ordered pair `(1, 0)` is not in the initial worklist — only
one ordering of each crossing pair is enqueued. -/
theorem c4_counterexample :
    (cB.overlap 0 1).isSome = true ∧ ((1, 0) : Fin 2 × Fin 2) ∉ initialArcs cB := by
  decide

/-- C2 (amended): when `ac3` with no explicit arc list succeeds, every arc
of the initial worklist — one ordering per pair of distinct slots, see
`c4_one_direction_per_pair` — is arc consistent in the final domains, and
hence every crossing pair is arc consistent in at least one of its two
orderings.  The reverse orderings are not guaranteed (see
`c2_counterexample`).  The overlap hypotheses are the symmetry and
irreflexivity of the Grid/Slot model's overlap relation. -/
theorem c2_halfarc_consistency (c : Crossword n) (d : Domains n)
    (hsym : ∀ a b i j, c.overlap a b = some (i, j) → c.overlap b a = some (j, i))
    (hirr : ∀ a, c.overlap a a = none)
    (hkeys : ∀ x y : Fin n, x ≠ y → (c.overlap x y).isSome = true →
      (x, y) ∈ c.overlapsKeys)
    (htrue : (ac3 c d none).1 = true) :
    (∀ p ∈ initialArcs c, arcOKb c ((ac3 c d none).2) p.1 p.2 = true) ∧
    (∀ x y : Fin n, x ≠ y → (c.overlap x y).isSome = true →
      arcOKb c ((ac3 c d none).2) x y = true ∨
        arcOKb c ((ac3 c d none).2) y x = true) := by
  have hloop := ac3_eq_loop c d none
  have hpair : ac3 c d none = (true, (ac3 c d none).2) := by
    rw [← htrue]
  have hsome : ac3Loop c (ac3Measure d (queueInit c none) + 1) d (queueInit c none) =
      some (true, (ac3 c d none).2) :=
    hloop.trans (congrArg some hpair)
  have hA := ac3Loop_invariant c hsym hirr (initialArcs c) _ d (queueInit c none)
    ((ac3 c d none).2) (fun p hp => Or.inl hp) hsome
  refine ⟨hA, ?_⟩
  intro x y hxy hov
  rcases foldl_addArc_cover c.overlapsKeys [] (x, y) (hkeys x y hxy hov) with h | h
  · exact Or.inl (hA (x, y) h)
  · exact Or.inr (hA (y, x) h)

theorem overlap_symm_of_swap (c : Crossword n)
    (hQ : ∀ a b : Fin n, c.overlap b a = (c.overlap a b).map (fun p => (p.2, p.1))) :
    ∀ (a b : Fin n) (i j : Nat), c.overlap a b = some (i, j) → c.overlap b a = some (j, i) := by
  intro a b i j h
  rw [hQ a b, h]
  rfl

theorem c2_witness : (∀ (a b : Fin 2) (i j : Nat),
      cB.overlap a b = some (i, j) → cB.overlap b a = some (j, i)) ∧
    (∀ a : Fin 2, cB.overlap a a = none) ∧
    (ac3 cB (enforce_node_consistency cB) none).1 = true ∧
    (∀ p ∈ initialArcs cB,
      arcOKb cB ((ac3 cB (enforce_node_consistency cB) none).2) p.1 p.2 = true) ∧
    (∀ x y : Fin 2, x ≠ y → (cB.overlap x y).isSome = true →
      arcOKb cB ((ac3 cB (enforce_node_consistency cB) none).2) x y = true ∨
        arcOKb cB ((ac3 cB (enforce_node_consistency cB) none).2) y x = true) := by
  have hsym : ∀ (a b : Fin 2) (i j : Nat),
      cB.overlap a b = some (i, j) → cB.overlap b a = some (j, i) :=
    overlap_symm_of_swap cB (by decide)
  have hres := c2_halfarc_consistency cB (enforce_node_consistency cB) hsym
    (by decide) (by decide) (by decide)
  exact ⟨hsym, by decide, by decide, hres.1, hres.2⟩

/-- C2 is false as stated: in the concrete crossword `cB`, `ac3` with no
explicit arc list succeeds, yet the crossing pair `(1, 0)` with recorded
offsets `(1, 0)` is not arc consistent afterwards — the word "ab" remains
in slot 1's domain with no compatible word in slot 0's domain. -/
theorem c2_counterexample :
    (ac3 cB (enforce_node_consistency cB) none).1 = true ∧
      cB.overlap 1 0 = some (1, 0) ∧
      "ab".toList ∈ (ac3 cB (enforce_node_consistency cB) none).2 1 ∧
      ∀ wy ∈ (ac3 cB (enforce_node_consistency cB) none).2 0,
        charMatch "ab".toList wy 1 0 = false := by
  decide

/-! Lemmas about `select_unassigned_variable`. -/

theorem selFold (c : Crossword n) (d : Domains n) (a : Assign n) :
    ∀ (l : List (Fin n)) (res : Option (Fin n)),
      (∀ r, res = some r → lookupA a r = none) →
      ((l.foldl (selStep c d a) res = none →
          res = none ∧ ∀ u ∈ l, (lookupA a u).isSome = true) ∧
       (∀ v, l.foldl (selStep c d a) res = some v →
         lookupA a v = none ∧
         (∀ u ∈ l, lookupA a u = none → (d v).length ≤ (d u).length) ∧
         (∀ r, res = some r → (d v).length ≤ (d r).length))) := by
  intro l
  induction l with
  | nil =>
    intro res hres
    refine ⟨fun h => ⟨h, by simp⟩, fun v hv => ?_⟩
    refine ⟨hres v hv, by simp, fun r hr => ?_⟩
    have hv' : res = some v := hv
    rw [hv'] at hr
    obtain rfl : v = r := Option.some.inj hr
    exact Nat.le_refl _
  | cons u us ih =>
    intro res hres
    simp only [List.foldl_cons]
    by_cases hu : (lookupA a u).isSome = true
    · have hstep : selStep c d a res u = res := by
        unfold selStep; rw [if_pos hu]
      rw [hstep]
      obtain ⟨ihn, ihs⟩ := ih res hres
      constructor
      · intro h
        obtain ⟨h1, h2⟩ := ihn h
        refine ⟨h1, fun w hw => ?_⟩
        rcases List.mem_cons.mp hw with he | hm
        · subst he; exact hu
        · exact h2 w hm
      · intro v hv
        obtain ⟨h1, h2, h3⟩ := ihs v hv
        refine ⟨h1, fun w hw hwn => ?_, h3⟩
        rcases List.mem_cons.mp hw with he | hm
        · subst he; rw [hwn] at hu; simp at hu
        · exact h2 w hm hwn
    · have hun : lookupA a u = none := by
        cases h : lookupA a u
        · rfl
        · rw [h] at hu; simp at hu
      cases res with
      | none =>
        have hstep : selStep c d a none u = some u := by
          unfold selStep; rw [if_neg (by rw [hun]; simp)]
        rw [hstep]
        obtain ⟨ihn, ihs⟩ := ih (some u)
          (fun r hr => by obtain rfl : u = r := Option.some.inj hr; exact hun)
        constructor
        · intro h
          obtain ⟨h1, _⟩ := ihn h
          exact Option.noConfusion h1
        · intro v hv
          obtain ⟨h1, h2, h3⟩ := ihs v hv
          refine ⟨h1, fun w hw hwn => ?_, fun r hr => Option.noConfusion hr⟩
          rcases List.mem_cons.mp hw with he | hm
          · subst he; exact h3 w rfl
          · exact h2 w hm hwn
      | some r =>
        by_cases hbetter : (d u).length < (d r).length ∨
            ((d u).length = (d r).length ∧
              (neighbors c r).length < (neighbors c u).length)
        · have hstep : selStep c d a (some r) u = some u := by
            simp [selStep, hun, hbetter]
          rw [hstep]
          obtain ⟨ihn, ihs⟩ := ih (some u)
            (fun r' hr' => by obtain rfl : u = r' := Option.some.inj hr'; exact hun)
          constructor
          · intro h
            obtain ⟨h1, _⟩ := ihn h
            exact Option.noConfusion h1
          · intro v hv
            obtain ⟨h1, h2, h3⟩ := ihs v hv
            have hvu : (d v).length ≤ (d u).length := h3 u rfl
            have hur : (d u).length ≤ (d r).length := by
              rcases hbetter with h | h
              · exact Nat.le_of_lt h
              · exact Nat.le_of_eq h.1
            refine ⟨h1, fun w hw hwn => ?_, fun r' hr' => ?_⟩
            · rcases List.mem_cons.mp hw with he | hm
              · subst he; exact hvu
              · exact h2 w hm hwn
            · obtain rfl : r = r' := Option.some.inj hr'
              exact Nat.le_trans hvu hur
        · have hstep : selStep c d a (some r) u = some r := by
            simp [selStep, hun, hbetter]
          rw [hstep]
          obtain ⟨ihn, ihs⟩ := ih (some r) hres
          have hru : (d r).length ≤ (d u).length := by
            rcases Nat.lt_or_ge (d u).length (d r).length with h | h
            · exact absurd (Or.inl h) hbetter
            · exact h
          constructor
          · intro h
            obtain ⟨h1, _⟩ := ihn h
            exact Option.noConfusion h1
          · intro v hv
            obtain ⟨h1, h2, h3⟩ := ihs v hv
            have hvr : (d v).length ≤ (d r).length := h3 r rfl
            refine ⟨h1, fun w hw hwn => ?_, fun r' hr' => ?_⟩
            · rcases List.mem_cons.mp hw with he | hm
              · subst he; exact Nat.le_trans hvr hru
              · exact h2 w hm hwn
            · obtain rfl : r = r' := Option.some.inj hr'
              exact hvr

theorem select_some_unassigned (c : Crossword n) (d : Domains n) (a : Assign n)
    (v : Fin n) (h : select_unassigned_variable c d a = some v) :
    lookupA a v = none :=
  (((selFold c d a (List.finRange n) none
    (fun _ hr => Option.noConfusion hr)).2 v h)).1

theorem select_min (c : Crossword n) (d : Domains n) (a : Assign n)
    (v : Fin n) (h : select_unassigned_variable c d a = some v) :
    ∀ u : Fin n, lookupA a u = none → (d v).length ≤ (d u).length :=
  fun u hu =>
    (((selFold c d a (List.finRange n) none
      (fun _ hr => Option.noConfusion hr)).2 v h)).2.1 u (List.mem_finRange u) hu

theorem select_ne_none (c : Crossword n) (d : Domains n) (a : Assign n)
    (u : Fin n) (hu : lookupA a u = none) :
    select_unassigned_variable c d a ≠ none := by
  intro h
  obtain ⟨_, hall⟩ := (selFold c d a (List.finRange n) none
    (fun _ hr => Option.noConfusion hr)).1 h
  have := hall u (List.mem_finRange u)
  rw [hu] at this
  simp at this

/-! Lemmas about assignments and `backtrack`. -/

theorem lookupA_none_iff (a : Assign n) (v : Fin n) :
    lookupA a v = none ↔ v ∉ a.map Prod.fst := by
  unfold lookupA
  rw [Option.map_eq_none', List.find?_eq_none]
  constructor
  · intro h hmem
    obtain ⟨p, hp, hpv⟩ := List.mem_map.mp hmem
    exact h p hp (by simpa using hpv)
  · intro h p hp hbeq
    exact h (List.mem_map.mpr ⟨p, hp, by simpa using hbeq⟩)

theorem lookupA_cons (p : Fin n × Word) (a : Assign n) (v : Fin n) :
    lookupA (p :: a) v = if p.1 = v then some p.2 else lookupA a v := by
  unfold lookupA
  by_cases h : p.1 = v
  · rw [if_pos h]
    have hfind : List.find? (fun q => q.1 == v) (p :: a) = some p := by
      apply List.find?_cons_of_pos
      simp [h]
    rw [hfind]
    rfl
  · rw [if_neg h]
    have hfind : List.find? (fun q => q.1 == v) (p :: a) =
        List.find? (fun q => q.1 == v) a := by
      apply List.find?_cons_of_neg
      simp [h]
    rw [hfind]

theorem lookupA_mem (a : Assign n) (v : Fin n) (w : Word)
    (hnd : (a.map Prod.fst).Nodup) (hmem : (v, w) ∈ a) : lookupA a v = some w := by
  induction a with
  | nil => cases hmem
  | cons p a ih =>
    rw [lookupA_cons]
    rcases List.mem_cons.mp hmem with he | hm
    · subst he
      rw [if_pos rfl]
    · rw [List.map_cons] at hnd
      have hnd' := List.nodup_cons.mp hnd
      have hv : v ∈ a.map Prod.fst := List.mem_map.mpr ⟨(v, w), hm, rfl⟩
      rw [if_neg (fun (he : p.1 = v) => hnd'.1 (by rw [he]; exact hv))]
      exact ih hnd'.2 hm

theorem eraseKey_eq_self (a : Assign n) (v : Fin n) (h : v ∉ a.map Prod.fst) :
    eraseKey a v = a := by
  unfold eraseKey
  refine List.filter_eq_self.mpr fun p hp => ?_
  have hne : p.1 ≠ v := fun he => h (he ▸ List.mem_map_of_mem Prod.fst hp)
  simpa using hne

theorem eraseKey_append (a : Assign n) (v : Fin n) (w : Word)
    (h : v ∉ a.map Prod.fst) : eraseKey (a ++ [(v, w)]) v = a := by
  unfold eraseKey
  rw [List.filter_append]
  have h2 : [((v : Fin n), w)].filter (fun p => decide (p.1 ≠ v)) = [] := by simp
  rw [h2, List.append_nil]
  exact eraseKey_eq_self a v h

theorem tryValues_cons_some (c : Crossword n) (bt : Assign n → BTRes n)
    (v : Fin n) (w : Word) (ws : List Word) (a : Assign n) (res : Assign n)
    (hcons : consistent c (a ++ [(v, w)]) = true)
    (hres : (bt (a ++ [(v, w)])).result = some res) :
    tryValues c bt v (w :: ws) a =
      ⟨some res, (bt (a ++ [(v, w)])).final, (v, w) :: (bt (a ++ [(v, w)])).trace,
        (bt (a ++ [(v, w)])).calls⟩ := by
  simp only [tryValues]
  rw [if_pos hcons, hres]

theorem tryValues_cons_none (c : Crossword n) (bt : Assign n → BTRes n)
    (v : Fin n) (w : Word) (ws : List Word) (a : Assign n)
    (hcons : consistent c (a ++ [(v, w)]) = true)
    (hres : (bt (a ++ [(v, w)])).result = none) :
    tryValues c bt v (w :: ws) a =
      ⟨(tryValues c bt v ws (eraseKey (bt (a ++ [(v, w)])).final v)).result,
       (tryValues c bt v ws (eraseKey (bt (a ++ [(v, w)])).final v)).final,
       (v, w) :: ((bt (a ++ [(v, w)])).trace ++
         (tryValues c bt v ws (eraseKey (bt (a ++ [(v, w)])).final v)).trace),
       (bt (a ++ [(v, w)])).calls +
         (tryValues c bt v ws (eraseKey (bt (a ++ [(v, w)])).final v)).calls⟩ := by
  simp only [tryValues]
  rw [if_pos hcons, hres]

theorem tryValues_cons_incons (c : Crossword n) (bt : Assign n → BTRes n)
    (v : Fin n) (w : Word) (ws : List Word) (a : Assign n)
    (hcons : ¬ consistent c (a ++ [(v, w)]) = true) :
    tryValues c bt v (w :: ws) a =
      ⟨(tryValues c bt v ws (eraseKey (a ++ [(v, w)]) v)).result,
       (tryValues c bt v ws (eraseKey (a ++ [(v, w)]) v)).final,
       (v, w) :: (tryValues c bt v ws (eraseKey (a ++ [(v, w)]) v)).trace,
       (tryValues c bt v ws (eraseKey (a ++ [(v, w)]) v)).calls⟩ := by
  simp only [tryValues]
  rw [if_neg hcons]

theorem backtrack_succ_complete (c : Crossword n) (d : Domains n) (f : Nat)
    (a : Assign n) (h : assignment_complete n a = true) :
    backtrack c d (f + 1) a = ⟨some a, a, [], 1⟩ := by
  simp only [backtrack]
  rw [if_pos h]

theorem backtrack_succ_nosel (c : Crossword n) (d : Domains n) (f : Nat)
    (a : Assign n) (hc : ¬ assignment_complete n a = true)
    (hs : select_unassigned_variable c d a = none) :
    backtrack c d (f + 1) a = ⟨none, a, [], 1⟩ := by
  simp only [backtrack]
  rw [if_neg hc, hs]

theorem backtrack_succ_sel (c : Crossword n) (d : Domains n) (f : Nat)
    (a : Assign n) (v : Fin n) (hc : ¬ assignment_complete n a = true)
    (hs : select_unassigned_variable c d a = some v) :
    backtrack c d (f + 1) a =
      ⟨(tryValues c (backtrack c d f) v (d v) a).result,
       (tryValues c (backtrack c d f) v (d v) a).final,
       (tryValues c (backtrack c d f) v (d v) a).trace,
       (tryValues c (backtrack c d f) v (d v) a).calls + 1⟩ := by
  simp only [backtrack]
  rw [if_neg hc, hs]

theorem tryValues_restore (c : Crossword n) (bt : Assign n → BTRes n) (v : Fin n)
    (hbt : ∀ a', (bt a').result = none → (bt a').final = a') :
    ∀ (ws : List Word) (a : Assign n), v ∉ a.map Prod.fst →
      (tryValues c bt v ws a).result = none → (tryValues c bt v ws a).final = a := by
  intro ws
  induction ws with
  | nil => intro a _ _; rfl
  | cons w ws ih =>
    intro a hv h
    by_cases hcons : consistent c (a ++ [(v, w)]) = true
    · cases hres : (bt (a ++ [(v, w)])).result with
      | some res =>
        rw [tryValues_cons_some c bt v w ws a res hcons hres] at h
        simp at h
      | none =>
        have hfin : (bt (a ++ [(v, w)])).final = a ++ [(v, w)] := hbt _ hres
        rw [tryValues_cons_none c bt v w ws a hcons hres] at h ⊢
        dsimp only at h ⊢
        rw [hfin, eraseKey_append a v w hv] at h ⊢
        exact ih a hv h
    · rw [tryValues_cons_incons c bt v w ws a hcons] at h ⊢
      dsimp only at h ⊢
      rw [eraseKey_append a v w hv] at h ⊢
      exact ih a hv h

theorem backtrack_restore (c : Crossword n) (d : Domains n) :
    ∀ (f : Nat) (a : Assign n), (backtrack c d f a).result = none →
      (backtrack c d f a).final = a := by
  intro f
  induction f with
  | zero => intro a _; rfl
  | succ f ih =>
    intro a h
    by_cases hcomp : assignment_complete n a = true
    · rw [backtrack_succ_complete c d f a hcomp] at h
      simp at h
    · cases hsel : select_unassigned_variable c d a with
      | none => rw [backtrack_succ_nosel c d f a hcomp hsel]
      | some v =>
        rw [backtrack_succ_sel c d f a v hcomp hsel] at h ⊢
        dsimp only at h ⊢
        have hv : v ∉ a.map Prod.fst :=
          (lookupA_none_iff a v).mp (select_some_unassigned c d a v hsel)
        exact tryValues_restore c _ v ih (d v) a hv h

theorem backtrack_calls_ne_zero (c : Crossword n) (d : Domains n)
    (f : Nat) (a : Assign n) : (backtrack c d f a).calls ≠ 0 := by
  cases f with
  | zero => simp [backtrack]
  | succ f =>
    by_cases hcomp : assignment_complete n a = true
    · rw [backtrack_succ_complete c d f a hcomp]
      simp
    · cases hsel : select_unassigned_variable c d a with
      | none =>
        rw [backtrack_succ_nosel c d f a hcomp hsel]
        simp
      | some v =>
        rw [backtrack_succ_sel c d f a v hcomp hsel]
        simp

/-- C8: backtracking is atomic on failure: whenever a `backtrack` call
returns failure (`none`), the assignment dict it was given is exactly as
it was at entry — every tentative extension made inside the call has been
popped before returning. -/
theorem c8_backtrack_atomic (c : Crossword n) (d : Domains n) (f : Nat)
    (a : Assign n) (h : (backtrack c d f a).result = none) :
    (backtrack c d f a).final = a :=
  backtrack_restore c d f a h

theorem c8_witness :
    (backtrack cF (enforce_node_consistency cF) 2 []).result = none ∧
      (backtrack cF (enforce_node_consistency cF) 2 []).final = [] :=
  ⟨by decide, c8_backtrack_atomic cF (enforce_node_consistency cF) 2 [] (by decide)⟩

/-! Claim C1: the fate of `solve` when `ac3` reports failure. -/

theorem ac3_false_empty (c : Crossword n) (d : Domains n)
    (arcs : Option (List (Fin n × Fin n))) (h : (ac3 c d arcs).1 = false) :
    ∃ v, (ac3 c d arcs).2 v = [] := by
  have hloop := ac3_eq_loop c d arcs
  have hpair : ac3 c d arcs = (false, (ac3 c d arcs).2) := by
    rw [← h]
  have hsome : ac3Loop c (ac3Measure d (queueInit c arcs) + 1) d (queueInit c arcs) =
      some (false, (ac3 c d arcs).2) := hloop.trans (congrArg some hpair)
  exact ac3Loop_false_empty c _ d _ _ hsome

theorem backtrack_root_none_of_empty (c : Crossword n) (d : Domains n) (f : Nat)
    (v : Fin n) (hv : d v = []) : (backtrack c d f []).result = none := by
  cases f with
  | zero => rfl
  | succ f =>
    have hpos : 0 < n := v.pos
    have hcomp : ¬ assignment_complete n ([] : Assign n) = true := by
      unfold assignment_complete
      intro hc
      have : n = 0 := by simpa using hc
      omega
    cases hsel : select_unassigned_variable c d ([] : Assign n) with
    | none => exact absurd hsel (select_ne_none c d [] v rfl)
    | some v0 =>
      have hlen : (d v0).length = 0 := by
        have hmin := select_min c d [] v0 hsel v rfl
        rw [hv] at hmin
        simpa using hmin
      have h0 : d v0 = [] := List.length_eq_zero.mp hlen
      rw [backtrack_succ_sel c d f [] v0 hcomp hsel]
      dsimp only
      rw [h0]
      rfl

/-- C1 (amended): `solve` ignores the boolean returned by `ac3` and always
invokes `backtrack` — the invocation count is nonzero even when AC-3
detects unsatisfiability.  Nevertheless, whenever `ac3` reports an emptied
domain (returns `false`), the invoked backtracking search fails at once on
the emptied domain, so `solve` still returns "no solution" (`none`). -/
theorem c1_solve_none_of_ac3_false (c : Crossword n)
    (h : (ac3 c (enforce_node_consistency c) none).1 = false) :
    solve c = none ∧ (solveTr c).calls ≠ 0 := by
  obtain ⟨v, hv⟩ := ac3_false_empty c (enforce_node_consistency c) none h
  constructor
  · show (backtrack c ((ac3 c (enforce_node_consistency c) none)).2
      (n + 1) []).result = none
    exact backtrack_root_none_of_empty c _ (n + 1) v hv
  · show (backtrack c ((ac3 c (enforce_node_consistency c) none)).2
      (n + 1) []).calls ≠ 0
    exact backtrack_calls_ne_zero c _ (n + 1) []

theorem c1_witness :
    (ac3 cA (enforce_node_consistency cA) none).1 = false ∧
      (solve cA = none ∧ (solveTr cA).calls ≠ 0) :=
  ⟨by decide, c1_solve_none_of_ac3_false cA (by decide)⟩

/-- C1 is false as stated: on the concrete crossword `cA` (the spec's
Scenario C), `ac3` returns `false` and `solve` does return "no solution" —
but the backtracking search is still invoked (exactly once), not "not at
all". -/
theorem c1_counterexample :
    (ac3 cA (enforce_node_consistency cA) none).1 = false ∧
      (solveTr cA).calls = 1 ∧ ¬((solveTr cA).calls = 0) ∧
      (solveTr cA).result = none := by
  decide

/-! Claim C5: soundness of assignments returned by `backtrack`. -/

theorem consistentAux_cons_true (c : Crossword n) (a : Assign n) (v : Fin n)
    (w : Word) (rest : List (Fin n × Word)) (seen : List Word)
    (h : consistentAux c a ((v, w) :: rest) seen = true) :
    w ∉ seen ∧ w.length = c.length v ∧
      ((neighbors c v).all (fun u =>
        match c.overlap v u, lookupA a u with
        | some (i, j), some wu => charMatch w wu i j
        | _, _ => true)) = true ∧
      consistentAux c a rest (w :: seen) = true := by
  simp only [consistentAux] at h
  by_cases h1 : w ∈ seen
  · rw [if_pos h1] at h
    exact absurd h (by simp)
  · rw [if_neg h1] at h
    by_cases h2 : w.length ≠ c.length v
    · rw [if_pos h2] at h
      exact absurd h (by simp)
    · rw [if_neg h2] at h
      by_cases h3 : ((neighbors c v).all (fun u =>
          match c.overlap v u, lookupA a u with
          | some (i, j), some wu => charMatch w wu i j
          | _, _ => true)) = true
      · rw [if_pos h3] at h
        exact ⟨h1, not_ne_iff.mp h2, h3, h⟩
      · rw [if_neg h3] at h
        exact absurd h (by simp)

theorem consistentAux_lengths (c : Crossword n) (a : Assign n) :
    ∀ (l : List (Fin n × Word)) (seen : List Word),
      consistentAux c a l seen = true → ∀ p ∈ l, p.2.length = c.length p.1 := by
  intro l
  induction l with
  | nil => intro seen _ p hp; cases hp
  | cons q rest ih =>
    obtain ⟨v, w⟩ := q
    intro seen h p hp
    obtain ⟨_, hlen, _, hrest⟩ := consistentAux_cons_true c a v w rest seen h
    rcases List.mem_cons.mp hp with he | hm
    · subst he
      exact hlen
    · exact ih _ hrest p hm

theorem consistentAux_words_nodup (c : Crossword n) (a : Assign n) :
    ∀ (l : List (Fin n × Word)) (seen : List Word),
      consistentAux c a l seen = true →
      (l.map Prod.snd).Nodup ∧ ∀ w ∈ l.map Prod.snd, w ∉ seen := by
  intro l
  induction l with
  | nil => intro seen _; exact ⟨List.nodup_nil, by simp⟩
  | cons q rest ih =>
    obtain ⟨v, w⟩ := q
    intro seen h
    obtain ⟨hseen, _, _, hrest⟩ := consistentAux_cons_true c a v w rest seen h
    obtain ⟨hnd, hnin⟩ := ih _ hrest
    constructor
    · rw [List.map_cons, List.nodup_cons]
      exact ⟨fun hw => (hnin w hw) (List.mem_cons_self _ _), hnd⟩
    · intro w' hw'
      rw [List.map_cons] at hw'
      rcases List.mem_cons.mp hw' with he | hm
      · subst he
        exact hseen
      · exact fun hw'seen => (hnin w' hm) (List.mem_cons_of_mem _ hw'seen)

theorem consistentAux_nbrs (c : Crossword n) (a : Assign n) :
    ∀ (l : List (Fin n × Word)) (seen : List Word),
      consistentAux c a l seen = true →
      ∀ p ∈ l, ((neighbors c p.1).all (fun u =>
        match c.overlap p.1 u, lookupA a u with
        | some (i, j), some wu => charMatch p.2 wu i j
        | _, _ => true)) = true := by
  intro l
  induction l with
  | nil => intro seen _ p hp; cases hp
  | cons q rest ih =>
    obtain ⟨v, w⟩ := q
    intro seen h p hp
    obtain ⟨_, _, hall, hrest⟩ := consistentAux_cons_true c a v w rest seen h
    rcases List.mem_cons.mp hp with he | hm
    · subst he
      exact hall
    · exact ih _ hrest p hm

theorem tryValues_sound (c : Crossword n) (bt : Assign n → BTRes n) (v : Fin n)
    (hbt_restore : ∀ a', (bt a').result = none → (bt a').final = a')
    (hbt_sound : ∀ a' r, (a'.map Prod.fst).Nodup → consistent c a' = true →
      (bt a').result = some r →
      r.length = n ∧ (r.map Prod.fst).Nodup ∧ consistent c r = true) :
    ∀ (ws : List Word) (a : Assign n) (r : Assign n),
      v ∉ a.map Prod.fst → (a.map Prod.fst).Nodup →
      (tryValues c bt v ws a).result = some r →
      r.length = n ∧ (r.map Prod.fst).Nodup ∧ consistent c r = true := by
  intro ws
  induction ws with
  | nil =>
    intro a r _ _ h
    exact absurd h (by simp [tryValues])
  | cons w ws ih =>
    intro a r hv hnd h
    by_cases hcons : consistent c (a ++ [(v, w)]) = true
    · cases hres : (bt (a ++ [(v, w)])).result with
      | some res =>
        rw [tryValues_cons_some c bt v w ws a res hcons hres] at h
        dsimp only at h
        obtain rfl : res = r := Option.some.inj h
        have hnd1 : ((a ++ [(v, w)]).map Prod.fst).Nodup := by
          rw [List.map_append, List.nodup_append]
          refine ⟨hnd, List.nodup_singleton _, ?_⟩
          intro x hx hx2
          have hxv : x = v := by simpa using hx2
          subst hxv
          exact hv hx
        exact hbt_sound _ _ hnd1 hcons hres
      | none =>
        rw [tryValues_cons_none c bt v w ws a hcons hres] at h
        dsimp only at h
        rw [hbt_restore _ hres, eraseKey_append a v w hv] at h
        exact ih a r hv hnd h
    · rw [tryValues_cons_incons c bt v w ws a hcons] at h
      dsimp only at h
      rw [eraseKey_append a v w hv] at h
      exact ih a r hv hnd h

theorem backtrack_sound (c : Crossword n) (d : Domains n) :
    ∀ (f : Nat) (a r : Assign n),
      (a.map Prod.fst).Nodup → consistent c a = true →
      (backtrack c d f a).result = some r →
      r.length = n ∧ (r.map Prod.fst).Nodup ∧ consistent c r = true := by
  intro f
  induction f with
  | zero =>
    intro a r _ _ h
    exact absurd h (by simp [backtrack])
  | succ f ih =>
    intro a r hnd hcons h
    by_cases hcomp : assignment_complete n a = true
    · rw [backtrack_succ_complete c d f a hcomp] at h
      dsimp only at h
      obtain rfl : a = r := Option.some.inj h
      refine ⟨?_, hnd, hcons⟩
      unfold assignment_complete at hcomp
      have : n = a.length := by simpa using hcomp
      omega
    · cases hsel : select_unassigned_variable c d a with
      | none =>
        rw [backtrack_succ_nosel c d f a hcomp hsel] at h
        exact absurd h (by simp)
      | some v =>
        rw [backtrack_succ_sel c d f a v hcomp hsel] at h
        dsimp only at h
        have hv : v ∉ a.map Prod.fst :=
          (lookupA_none_iff a v).mp (select_some_unassigned c d a v hsel)
        exact tryValues_sound c _ v (backtrack_restore c d f) (ih) (d v) a r hv hnd h

theorem nodup_full (l : List (Fin n)) (hnd : l.Nodup) (hlen : l.length = n) :
    ∀ v : Fin n, v ∈ l := by
  intro v
  have h1 : l.toFinset.card = n := by
    rw [List.toFinset_card_of_nodup hnd, hlen]
  have h2 : l.toFinset = Finset.univ := by
    apply Finset.eq_univ_of_card
    rw [h1, Fintype.card_fin]
  rw [← List.mem_toFinset, h2]
  exact Finset.mem_univ v

/-- C5: every successful assignment returned by `backtrack` — starting
from a well-formed input assignment, as at `solve`'s top-level call with
the empty dict — covers every slot exactly once and is globally
consistent: assigned word lengths match slot lengths, no two distinct
slots share a word, and crossing assigned slots agree at the recorded
overlap offsets.  `hirr` is the irreflexivity of the Grid/Slot overlap
relation. -/
theorem c5_backtrack_sound (c : Crossword n) (d : Domains n) (f : Nat)
    (a r : Assign n)
    (hirr : ∀ v, c.overlap v v = none)
    (hnd : (a.map Prod.fst).Nodup) (hcons : consistent c a = true)
    (h : (backtrack c d f a).result = some r) :
    ((r.map Prod.fst).Nodup ∧ ∀ v : Fin n, v ∈ r.map Prod.fst) ∧
    (∀ p ∈ r, (p.2 : Word).length = c.length p.1) ∧
    (∀ p q2 : Fin n × Word, p ∈ r → q2 ∈ r → p.1 ≠ q2.1 → p.2 ≠ q2.2) ∧
    (∀ (p q2 : Fin n × Word) (i j : Nat), p ∈ r → q2 ∈ r →
      c.overlap p.1 q2.1 = some (i, j) → charMatch p.2 q2.2 i j = true) := by
  obtain ⟨hlen, hrnd, hrcons⟩ := backtrack_sound c d f a r hnd hcons h
  refine ⟨⟨hrnd, ?_⟩, ?_, ?_, ?_⟩
  · apply nodup_full _ hrnd
    rw [List.length_map]
    exact hlen
  · exact fun p hp => consistentAux_lengths c r r [] hrcons p hp
  · intro p q2 hp hq hne heq
    obtain ⟨hwnd, _⟩ := consistentAux_words_nodup c r r [] hrcons
    have hpq : p = q2 := List.inj_on_of_nodup_map hwnd hp hq heq
    exact hne (congrArg Prod.fst hpq)
  · intro p q2 i j hp hq hov
    have hne1 : q2.1 ≠ p.1 := by
      intro he
      rw [he, hirr p.1] at hov
      exact Option.noConfusion hov
    have hnbr : q2.1 ∈ neighbors c p.1 :=
      (mem_neighbors c p.1 q2.1).mpr ⟨hne1, by rw [hov]; rfl⟩
    have hall := consistentAux_nbrs c r r [] hrcons p hp
    rw [List.all_eq_true] at hall
    have hone := hall q2.1 hnbr
    have hlk : lookupA r q2.1 = some q2.2 := lookupA_mem r q2.1 q2.2 hrnd hq
    rw [hov, hlk] at hone
    exact hone

theorem c5_witness :
    ((∀ v : Fin 1, cE.overlap v v = none) ∧
      consistent cE [] = true ∧
      (backtrack cE (enforce_node_consistency cE) 2 []).result =
        some [(0, "ab".toList)]) ∧
      (∀ v : Fin 1, v ∈ ([((0 : Fin 1), "ab".toList)] : Assign 1).map Prod.fst) :=
  ⟨⟨by decide, by decide, by decide⟩,
    ((c5_backtrack_sound cE (enforce_node_consistency cE) 2 [] [(0, "ab".toList)]
      (by decide) (by decide) (by decide) (by decide)).1).2⟩

/-! Claim C3: the order in which `backtrack` tries candidate words. -/

theorem tryValues_trace_fresh (c : Crossword n) (bt : Assign n → BTRes n) (v : Fin n)
    (hbt_restore : ∀ a', (bt a').result = none → (bt a').final = a')
    (hbt_fresh : ∀ a' p, p ∈ (bt a').trace → p.1 ∉ a'.map Prod.fst) :
    ∀ (ws : List Word) (a : Assign n), v ∉ a.map Prod.fst →
      ∀ p ∈ (tryValues c bt v ws a).trace, p.1 ∉ a.map Prod.fst := by
  intro ws
  induction ws with
  | nil =>
    intro a _ p hp
    cases hp
  | cons w ws ih =>
    intro a hv p hp
    by_cases hcons : consistent c (a ++ [(v, w)]) = true
    · cases hres : (bt (a ++ [(v, w)])).result with
      | some res =>
        rw [tryValues_cons_some c bt v w ws a res hcons hres] at hp
        dsimp only at hp
        rcases List.mem_cons.mp hp with he | hm
        · subst he
          exact hv
        · have hfr := hbt_fresh _ p hm
          intro hmem
          exact hfr (by rw [List.map_append]; exact List.mem_append_left _ hmem)
      | none =>
        rw [tryValues_cons_none c bt v w ws a hcons hres] at hp
        dsimp only at hp
        rcases List.mem_cons.mp hp with he | hm
        · subst he
          exact hv
        · rcases List.mem_append.mp hm with h1 | h1
          · have hfr := hbt_fresh _ p h1
            intro hmem
            exact hfr (by rw [List.map_append]; exact List.mem_append_left _ hmem)
          · rw [hbt_restore _ hres, eraseKey_append a v w hv] at h1
            exact ih a hv p h1
    · rw [tryValues_cons_incons c bt v w ws a hcons] at hp
      dsimp only at hp
      rcases List.mem_cons.mp hp with he | hm
      · subst he
        exact hv
      · rw [eraseKey_append a v w hv] at hm
        exact ih a hv p hm

theorem backtrack_trace_fresh (c : Crossword n) (d : Domains n) :
    ∀ (f : Nat) (a : Assign n) (p : Fin n × Word),
      p ∈ (backtrack c d f a).trace → p.1 ∉ a.map Prod.fst := by
  intro f
  induction f with
  | zero =>
    intro a p hp
    cases hp
  | succ f ih =>
    intro a p hp
    by_cases hcomp : assignment_complete n a = true
    · rw [backtrack_succ_complete c d f a hcomp] at hp
      cases hp
    · cases hsel : select_unassigned_variable c d a with
      | none =>
        rw [backtrack_succ_nosel c d f a hcomp hsel] at hp
        cases hp
      | some v =>
        rw [backtrack_succ_sel c d f a v hcomp hsel] at hp
        dsimp only at hp
        have hv : v ∉ a.map Prod.fst :=
          (lookupA_none_iff a v).mp (select_some_unassigned c d a v hsel)
        exact tryValues_trace_fresh c _ v (backtrack_restore c d f) ih (d v) a hv p hp

theorem tryValues_tried (c : Crossword n) (bt : Assign n → BTRes n) (v : Fin n)
    (hbt_restore : ∀ a', (bt a').result = none → (bt a').final = a')
    (hbt_fresh : ∀ a' p, p ∈ (bt a').trace → p.1 ∉ a'.map Prod.fst) :
    ∀ (ws : List Word) (a : Assign n), v ∉ a.map Prod.fst →
      ∃ rest, ((tryValues c bt v ws a).trace.filterMap
        (fun p => if p.1 = v then some p.2 else none)) ++ rest = ws := by
  intro ws
  induction ws with
  | nil =>
    intro a _
    exact ⟨[], rfl⟩
  | cons w ws ih =>
    intro a hv
    have hfm : ∀ (t : List (Fin n × Word)),
        List.filterMap (fun p : Fin n × Word => if p.1 = v then some p.2 else none)
          ((v, w) :: t) =
        w :: List.filterMap (fun p : Fin n × Word => if p.1 = v then some p.2 else none)
          t := by
      intro t
      simp [List.filterMap_cons]
    by_cases hcons : consistent c (a ++ [(v, w)]) = true
    · cases hres : (bt (a ++ [(v, w)])).result with
      | some res =>
        rw [tryValues_cons_some c bt v w ws a res hcons hres]
        dsimp only
        have hbt0 : ((bt (a ++ [(v, w)])).trace.filterMap
            (fun p => if p.1 = v then some p.2 else none)) = [] := by
          rw [List.filterMap_eq_nil_iff]
          intro p hp
          have hne : p.1 ≠ v := by
            intro he
            refine hbt_fresh _ p hp ?_
            rw [List.map_append, he]
            exact List.mem_append_right _ (by simp)
          rw [if_neg hne]
        refine ⟨ws, ?_⟩
        rw [hfm, hbt0]
        rfl
      | none =>
        rw [tryValues_cons_none c bt v w ws a hcons hres]
        dsimp only
        have hbt0 : ((bt (a ++ [(v, w)])).trace.filterMap
            (fun p => if p.1 = v then some p.2 else none)) = [] := by
          rw [List.filterMap_eq_nil_iff]
          intro p hp
          have hne : p.1 ≠ v := by
            intro he
            refine hbt_fresh _ p hp ?_
            rw [List.map_append, he]
            exact List.mem_append_right _ (by simp)
          rw [if_neg hne]
        obtain ⟨rest, hrest⟩ := ih (eraseKey (bt (a ++ [(v, w)])).final v)
          (by rw [hbt_restore _ hres, eraseKey_append a v w hv]; exact hv)
        refine ⟨rest, ?_⟩
        rw [hfm, List.filterMap_append, hbt0, List.nil_append,
          List.cons_append, hrest]
    · rw [tryValues_cons_incons c bt v w ws a hcons]
      dsimp only
      obtain ⟨rest, hrest⟩ := ih (eraseKey (a ++ [(v, w)]) v)
        (by rw [eraseKey_append a v w hv]; exact hv)
      refine ⟨rest, ?_⟩
      rw [hfm, List.cons_append, hrest]

/-- C3 (amended): at every backtracking search node, the candidate words
tried for the selected slot are taken in the order they appear in that
slot's stored domain — the tried sequence is an initial segment of the
domain list.  Least Constraining Value ordering is not applied:
`order_domain_values` is never invoked by `backtrack`, and it sorts by a
shared-identical-word count rather than by overlap eliminations (see
`c3_counterexample`). -/
theorem c3_tried_in_domain_order (c : Crossword n) (d : Domains n) (f : Nat)
    (a : Assign n) (v : Fin n)
    (hsel : select_unassigned_variable c d a = some v) :
    ∃ rest, ((backtrack c d f a).trace.filterMap
      (fun p => if p.1 = v then some p.2 else none)) ++ rest = d v := by
  cases f with
  | zero => exact ⟨d v, rfl⟩
  | succ f =>
    by_cases hcomp : assignment_complete n a = true
    · rw [backtrack_succ_complete c d f a hcomp]
      exact ⟨d v, rfl⟩
    · rw [backtrack_succ_sel c d f a v hcomp hsel]
      dsimp only
      exact tryValues_tried c _ v (backtrack_restore c d f)
        (backtrack_trace_fresh c d f) (d v) a
        ((lookupA_none_iff a v).mp (select_some_unassigned c d a v hsel))

theorem c3_witness :
    select_unassigned_variable cC dC [] = some 0 ∧
      ∃ rest, (((backtrack cC dC 3 []).trace.filterMap
        (fun p => if p.1 = 0 then some p.2 else none)) ++ rest = dC 0) :=
  ⟨by decide, c3_tried_in_domain_order cC dC 3 [] 0 (by decide)⟩

/-- C3 is false as stated: in the concrete crossword `cC`, the root node
of `solve`'s backtracking search selects slot 0 and tries "ab" then "bb",
although "ab" eliminates 2 words from the unassigned neighbor's domain and
"bb" only 1 — the tried order is not ascending by elimination count.
Moreover `order_domain_values` (which `backtrack` never consults) returns
the domain order `["ab", "bb", "bc"]`, not the Least Constraining Value
order `["bb", "bc", "ab"]`. -/
theorem c3_counterexample :
    select_unassigned_variable cC dC [] = some 0 ∧
      ((solveTr cC).trace.filterMap
        (fun p => if p.1 = 0 then some p.2 else none)) =
        ["ab".toList, "bb".toList] ∧
      lcvElimCount_spec cC dC [] 0 "ab".toList = 2 ∧
      lcvElimCount_spec cC dC [] 0 "bb".toList = 1 ∧
      ¬ List.Pairwise (fun w1 w2 =>
          lcvElimCount_spec cC dC [] 0 w1 ≤ lcvElimCount_spec cC dC [] 0 w2)
        ["ab".toList, "bb".toList] ∧
      order_domain_values cC dC 0 [] =
        ["ab".toList, "bb".toList, "bc".toList] ∧
      lcvOrder_spec cC dC [] 0 =
        ["bb".toList, "bc".toList, "ab".toList] := by
  decide

end Cross
